import Mathlib

/-!
Verification development for the GitGroove generative-music core.

This file gives a shallow embedding, in Lean 4, of the program's harmony
state machine (HarmonyManager.ts), pattern generator (PatternGenerator.ts),
transport (useSequencer.ts) and voice bookkeeping (useVoiceManager.ts /
usePatternHandler.ts), and proves the stated properties about them.

Conventions used throughout the embedding:
* JavaScript strings are Lean `String`s; `undefined` string reads are
  modelled as the empty string `""` (both are falsy in the source's tests).
* JavaScript numbers are `ℚ` (timestamps, velocities, bpm) or `ℤ`/`ℕ`
  (array indices, counters); `Math.floor` is `Rat.floor`, and the JS `%`
  remainder on integers (sign of the dividend) is `Int.tmod`.
* `Math.random()`-driven choices are modelled by an oracle argument
  `k : ℕ`; an ideal random source yields `k < length of the choice list`
  whenever the list is sampled.
* Mutable class/ref state is threaded explicitly through state structures.
-/

namespace GitGroove

/-- The two scale kinds of `HarmonyManager.scales` (keys of the object literal). -/
inductive ScaleKind where
  | major
  | minor
deriving DecidableEq, Repr

/-- HarmonyManager.scales: note tables for the major and minor scale. -/
def scales : ScaleKind → List String
  | .major => ["C", "D", "E", "F", "G", "A", "B"]
  | .minor => ["C", "D", "Eb", "F", "G", "Ab", "Bb"]

/-- HarmonyManager.noteOffsets: per-scale semitone-offset tables. -/
def noteOffsets : ScaleKind → List ℕ
  | .major => [0, 2, 4, 5, 7, 9, 11]
  | .minor => [0, 2, 3, 5, 7, 8, 10]

/-- The chord kinds of `HarmonyManager.chordIntervals` (keys of the object literal). -/
inductive ChordType where
  | major
  | minor
  | dom7
  | min7
  | sus4
deriving DecidableEq, Repr

/-- HarmonyManager.chordIntervals: interval lists per chord kind. -/
def chordIntervals : ChordType → List ℕ
  | .major => [0, 4, 7]
  | .minor => [0, 3, 7]
  | .dom7 => [0, 4, 7, 10]
  | .min7 => [0, 3, 7, 10]
  | .sus4 => [0, 5, 7]

/-- HarmonyManager.progressions.basic. -/
def progressionBasic : List String := ["I", "IV", "V", "I"]

/-- HarmonyManager.progressions.pop. -/
def progressionPop : List String := ["I", "V", "vi", "IV"]

/-- HarmonyManager.progressions.jazz. -/
def progressionJazz : List String := ["ii", "V", "I"]

/-- HarmonyManager.progressions.emotional. -/
def progressionEmotional : List String := ["vi", "IV", "I", "V"]

/-- Does list `s` start with list `p`? Auxiliary for the substring test. -/
def charsStartWith : List Char → List Char → Bool
  | [], _ => true
  | _ :: _, [] => false
  | a :: ps, b :: ss => a == b && charsStartWith ps ss

/-- Does `hay` contain `needle` as a contiguous run? Auxiliary for `jsIncludes`. -/
def charsContain (needle : List Char) : List Char → Bool
  | [] => charsStartWith needle []
  | c :: rest => charsStartWith needle (c :: rest) || charsContain needle rest

/-- JavaScript `hay.includes(needle)` on strings. -/
def jsIncludes (hay needle : String) : Bool :=
  charsContain needle.toList hay.toList

/-- JavaScript `s.toLowerCase()` for the ASCII symbols used by the program. -/
def jsToLower (s : String) : String :=
  String.mk (s.toList.map Char.toLower)

/-- JavaScript `array.indexOf(x)` on string arrays: index of the first
occurrence, or `-1` when absent. -/
def jsIndexOf (l : List String) (x : String) : ℤ :=
  match l.findIdx? (· == x) with
  | some i => (i : ℤ)
  | none => -1

/-- JavaScript `array[i]` on string arrays with a possibly out-of-range or
negative integer index; `undefined` is modelled as `""`. -/
def jsGetStr (l : List String) (i : ℤ) : String :=
  if 0 ≤ i then l.getD i.toNat "" else ""

/-- The mutable state of a `HarmonyManager` instance: its private fields
`currentBeat`, `_bpm`, `rootHistory`, `currentKey`, `currentScale` and
`currentProgression`. -/
structure HMState where
  currentBeat : ℤ
  bpm : ℚ
  rootHistory : List String
  currentKey : String
  currentScale : ScaleKind
  currentProgression : List String
deriving DecidableEq, Repr

/-- The state of a freshly constructed `HarmonyManager` (field initializers). -/
def initialHM : HMState :=
  { currentBeat := 0
    bpm := 120
    rootHistory := []
    currentKey := "C"
    currentScale := .major
    currentProgression := progressionBasic }

/-- HarmonyManager.MAX_ROOT_REPETITIONS. -/
def MAX_ROOT_REPETITIONS : ℕ := 4

/-- HarmonyManager.getAvailableRoots: degrees 0, 3, 4 of the current scale's
note table. -/
def getAvailableRoots (st : HMState) : List String :=
  [0, 3, 4].map (fun degree => (scales st.currentScale).getD degree "")

/-- The repetition count computed inside `getNextHarmonicRoot`:
`this.rootHistory.filter((root) => root === this.currentKey).length`. -/
def repCount (st : HMState) : ℕ :=
  (st.rootHistory.filter (fun root => root == st.currentKey)).length

/-- The candidate list computed inside `getNextHarmonicRoot`:
`availableRoots.filter((root) => root !== this.currentKey)`. -/
def newRootsOf (st : HMState) : List String :=
  (getAvailableRoots st).filter (fun root => root != st.currentKey)

/-- HarmonyManager.getNextHarmonicRoot. The random pick
`newRoots[Math.floor(Math.random() * newRoots.length)]` is modelled by the
oracle index `k`; an out-of-range read yields `""` (JS `undefined`). -/
def getNextHarmonicRoot (st : HMState) (k : ℕ) : String :=
  if MAX_ROOT_REPETITIONS ≤ repCount st then (newRootsOf st).getD k ""
  else st.currentKey

/-- HarmonyManager.alignProgressionWithRoot: pick the basic progression at
scale-degree index 4, the pop progression at index 3, and keep the current
progression otherwise. -/
def alignProgressionWithRoot (st : HMState) (newRoot : String) : List String :=
  let currentScale := scales st.currentScale
  let rootIndex := jsIndexOf currentScale newRoot
  if rootIndex = 4 then progressionBasic
  else if rootIndex = 3 then progressionPop
  else st.currentProgression

/-- The scale assignment at the top of `determineHarmony`:
`this.currentScale.value = contributionLevel > 2 ? 'major' : 'minor'`. -/
def scaleSet (st : HMState) (contributionLevel : ℤ) : HMState :=
  { st with currentScale := if 2 < contributionLevel then .major else .minor }

/-- HarmonyManager.determineHarmony (state transition; the method's return
value is the key/scale/progression projection of the new state). `k` is the
random oracle passed through to `getNextHarmonicRoot`; `dayOfWeek` is
accepted but unused, as in the source. -/
def determineHarmony (st : HMState) (contributionLevel dayOfWeek : ℤ) (k : ℕ) : HMState :=
  let st1 := scaleSet st contributionLevel
  let nextRoot := getNextHarmonicRoot st1 k
  let st2 := { st1 with currentKey := nextRoot }
  let hist := st2.rootHistory ++ [nextRoot]
  let prog := alignProgressionWithRoot st2 nextRoot
  { st2 with
    rootHistory := if 8 < hist.length then hist.drop 1 else hist
    currentProgression := prog }

/-- HarmonyManager.getChordType: textual chord-kind inference from the symbol. -/
def getChordType (chordSymbol : String) : ChordType :=
  if jsIncludes chordSymbol "7" then .dom7
  else if jsIncludes chordSymbol "sus4" then .sus4
  else if jsToLower chordSymbol == chordSymbol then .minor
  else .major

/-- HarmonyManager.getChordNotes: resolve a chord symbol to concrete notes in
the current key and scale, or `[]` when the root is not in the scale table,
the symbol is empty (falsy), or any resolved note is empty. -/
def getChordNotes (st : HMState) (chordSymbol : String) : List String :=
  let scaleType := st.currentScale
  let offsets := noteOffsets scaleType
  let rootIndex := jsIndexOf (scales scaleType) st.currentKey
  if rootIndex = -1 ∨ chordSymbol = "" then []
  else
    let chordType := getChordType chordSymbol
    let intervals := chordIntervals chordType
    let notes := intervals.map (fun interval =>
      let offset := (rootIndex.toNat + offsets.getD (interval % 7) 0) % 7
      let octave := interval / 7 + 4
      let note := (scales scaleType).getD offset ""
      if note ≠ "" then note ++ toString octave else "")
    if notes.all (fun note => note ≠ "") then notes else []

/-- Is `c` a note letter `A`..`G`? Part of the `^[A-G][b#]?\d$` check. -/
def isNoteLetter (c : Char) : Bool := 'A' ≤ c && c ≤ 'G'

/-- Is `c` a decimal digit? Part of the `^[A-G][b#]?\d$` check. -/
def isDigitChar (c : Char) : Bool := '0' ≤ c && c ≤ '9'

/-- The regular-expression test `note.match(/^[A-G][b#]?\d$/)` as a Boolean
predicate on the whole string. -/
def matchNote (s : String) : Bool :=
  match s.toList with
  | [a, d] => isNoteLetter a && isDigitChar d
  | [a, m, d] => isNoteLetter a && (m == 'b' || m == '#') && isDigitChar d
  | _ => false

/-- Replace the first decimal digit of a character list by `c2`
(auxiliary for `jsReplaceDigit`). -/
def replaceFirstDigit (c2 : Char) : List Char → List Char
  | [] => []
  | c :: rest =>
    if isDigitChar c then c2 :: rest else c :: replaceFirstDigit c2 rest

/-- JavaScript `note.replace(/\d/, c2)`: replace the first digit occurrence. -/
def jsReplaceDigit (s : String) (c2 : Char) : String :=
  String.mk (replaceFirstDigit c2 s.toList)

/-- The bass/chord/extensions record returned by `getExtendedHarmony`
(and stored in `defaultNotes`). -/
structure ExtHarmony where
  bass : String
  chord : List String
  extensions : List String
deriving DecidableEq, Repr

/-- HarmonyManager.defaultNotes: the fixed fallback voicings. -/
def defaultNotes : ScaleKind → ExtHarmony
  | .major => ⟨"C2", ["C3", "E3", "G3"], ["C4", "E4", "G4"]⟩
  | .minor => ⟨"A2", ["A3", "C4", "E4"], ["A4", "C4", "E4"]⟩

/-- HarmonyManager.getExtendedHarmony. When `getChordNotes` yields `[]`, the
source's validity check passes vacuously and `baseChord[0].replace` then
throws a TypeError that the surrounding `try`/`catch` turns into the default
voicing; the `[]` match arm models exactly that caught-exception path. -/
def getExtendedHarmony (st : HMState) (level : ℤ) : ExtHarmony :=
  let progressionKind := if 2 < level then ScaleKind.major else ScaleKind.minor
  let chordSymbol := if 2 < level then "I" else "i"
  let baseChord := getChordNotes st chordSymbol
  if baseChord.all matchNote then
    match baseChord with
    | [] => defaultNotes progressionKind
    | n0 :: rest =>
      { bass := jsReplaceDigit n0 '2'
        chord := (n0 :: rest).map (fun note => jsReplaceDigit note '3')
        extensions :=
          if 2 < level then
            (n0 :: rest).map (fun note => jsReplaceDigit note '4') ++ [jsReplaceDigit n0 '5']
          else
            (n0 :: rest).map (fun note => jsReplaceDigit note '4') }
  else defaultNotes progressionKind

/-- The beat computation at the top of `getCurrentChord`:
`Math.floor((timestamp * this._bpm.value) / 60) % 4`, with the JS `%`
(remainder carrying the dividend's sign) as `Int.tmod`. -/
def jsBeat (st : HMState) (timestamp : ℚ) : ℤ :=
  Int.tmod (Rat.floor (timestamp * st.bpm / 60)) 4

/-- HarmonyManager.getCurrentChord: computes the current beat, stores it, and
resolves the progression symbol at that beat via `getChordNotes`; an
out-of-range read of the progression array is JS `undefined`, i.e. `""`. -/
def getCurrentChord (st : HMState) (timestamp : ℚ) : List String × HMState :=
  let beat := jsBeat st timestamp
  let st1 := { st with currentBeat := beat }
  let chordSymbol := jsGetStr st.currentProgression beat
  (getChordNotes st1 chordSymbol, st1)

/-- The reactive state of `useSequencer` (refs plus the captured
`lastTimestamp` variable and the `bars` input ref). A `lastTimestamp` of `0`
plays the role of the source's unset/falsy anchor. -/
structure SeqState where
  isPlaying : Bool
  currentBar : ℤ
  startPosition : ℤ
  bars : ℤ
  bpm : ℚ
  progress : ℚ
  isLooping : Bool
  isTriggered : Bool
  lastTimestamp : ℚ
deriving DecidableEq, Repr

/-- useSequencer's computed `msPerBar = (60 / bpm) * 1000`. -/
def msPerBar (st : SeqState) : ℚ := 60 / st.bpm * 1000

/-- The state of `useSequencer` right after construction with a given `bars`
input value. -/
def initSeq (bars : ℤ) : SeqState :=
  { isPlaying := false
    currentBar := 0
    startPosition := 0
    bars := bars
    bpm := 120
    progress := 0
    isLooping := false
    isTriggered := false
    lastTimestamp := 0 }

/-- The notifications a single `tick` call can raise: nothing, a bar-change
(`currentBar` incremented) or a loop-complete (`isLooping` raised and the
position wrapped to `startPosition`). -/
inductive SeqEvent where
  | none
  | barChange
  | loopComplete
deriving DecidableEq, Repr

/-- useSequencer.updateBarPosition: wrap to `startPosition` when advancing
would pass `startPosition + bars - 1`, else increment; either way reset the
progress and the elapsed-time anchor. -/
def updateBarPosition (st : SeqState) (timestamp : ℚ) : SeqState × SeqEvent :=
  let nextBar := st.currentBar + 1
  if st.startPosition + st.bars - 1 < nextBar then
    ({ st with isLooping := true, currentBar := st.startPosition,
               progress := 0, lastTimestamp := timestamp }, .loopComplete)
  else
    ({ st with isLooping := false, currentBar := nextBar,
               lastTimestamp := timestamp, progress := 0 }, .barChange)

/-- The anchor resolution at the top of `tick`:
`if (!lastTimestamp) lastTimestamp = timestamp`. -/
def tickAnchor (st : SeqState) (timestamp : ℚ) : ℚ :=
  if st.lastTimestamp = 0 then timestamp else st.lastTimestamp

/-- useSequencer.tick: update the sub-bar progress and, once a full bar
duration has elapsed since the anchor, raise `isTriggered` and advance the
bar position. The DOM day-pattern dispatch is external output and carries no
sequencer state. -/
def tick (st : SeqState) (timestamp : ℚ) : SeqState × SeqEvent :=
  let anchor := tickAnchor st timestamp
  let elapsed := timestamp - anchor
  let st1 := { st with lastTimestamp := anchor,
                       progress := min (elapsed / msPerBar st) (999 / 1000) }
  if msPerBar st ≤ elapsed then
    updateBarPosition { st1 with isTriggered := true } timestamp
  else (st1, .none)

/-- useSequencer.play: start at `startPosition` with a fresh anchor
(`timestamp` stands for `performance.now()`). -/
def play (st : SeqState) (timestamp : ℚ) : SeqState :=
  { st with isPlaying := true, progress := 0, lastTimestamp := timestamp,
            currentBar := st.startPosition, isLooping := false }

/-- useSequencer.pause. -/
def pause (st : SeqState) : SeqState := { st with isPlaying := false }

/-- useSequencer.stop: pause, then reset progress, bar position and looping flag. -/
def stop (st : SeqState) : SeqState :=
  { pause st with progress := 0, currentBar := st.startPosition, isLooping := false }

/-- useSequencer.setBPM: clamp into [30, 300]. -/
def setBPM (st : SeqState) (newBPM : ℚ) : SeqState :=
  { st with bpm := max 30 (min 300 newBPM) }

/-- useSequencer.setStartPosition. -/
def setStartPosition (st : SeqState) (position : ℤ) : SeqState :=
  { st with startPosition := position, currentBar := position, progress := 0,
            lastTimestamp := 0, isLooping := false }

/-- The `watch(bars, () => stop())` handler together with the change of the
`bars` input ref itself. -/
def setBars (st : SeqState) (n : ℤ) : SeqState :=
  stop { st with bars := n }

/-- Run a list of `tick` calls, counting how many raised a loop-complete
notification. -/
def runTicks (st : SeqState) : List ℚ → SeqState × ℕ
  | [] => (st, 0)
  | t :: rest =>
    let stepped := tick st t
    let tail := runTicks stepped.1 rest
    (tail.1, (if stepped.2 = .loopComplete then 1 else 0) + tail.2)

/-- The sequencer operations reachable from the composable's public surface. -/
inductive SeqOp where
  | opPlay (t : ℚ)
  | opTick (t : ℚ)
  | opStop
  | opPause
  | opSetBPM (n : ℚ)
  | opSetStart (p : ℤ)
  | opSetBars (n : ℤ)

/-- Apply one sequencer operation to the state. -/
def applySeqOp (st : SeqState) : SeqOp → SeqState
  | .opPlay t => play st t
  | .opTick t => (tick st t).1
  | .opStop => stop st
  | .opPause => pause st
  | .opSetBPM n => setBPM st n
  | .opSetStart p => setStartPosition st p
  | .opSetBars n => setBars st n

/-- Run a list of sequencer operations from a starting state. -/
def runSeqOps (st : SeqState) : List SeqOp → SeqState
  | [] => st
  | op :: rest => runSeqOps (applySeqOp st op) rest

/-- A `bars` input change keeps the loop length positive (the UI input is a
bar count ≥ 1); other operations are unrestricted. -/
def ValidSeqOp : SeqOp → Prop
  | .opSetBars n => 1 ≤ n
  | _ => True

/-- The claimed position invariant of the sequencer state. -/
def SeqInv (st : SeqState) : Prop :=
  1 ≤ st.bars ∧ st.startPosition ≤ st.currentBar ∧
    st.currentBar ≤ st.startPosition + st.bars - 1

/-- useVoiceManager's MAX_VOICES. -/
def MAX_VOICES : ℤ := 4

/-- The `voiceStatus` ref of useVoiceManager. -/
structure VoiceState where
  active : ℤ
  pending : ℤ
  lastCleanup : ℚ
deriving DecidableEq, Repr

/-- useVoiceManager.updateVoiceStatus: adjust `active` by `delta`, floored at 0. -/
def updateVoiceStatus (st : VoiceState) (delta : ℤ) : VoiceState :=
  { st with active := max 0 (st.active + delta) }

/-- useVoiceManager.cleanupVoices (state part: zero the counters; the
`releaseAll` call and the 100 ms settle delay are external effects). -/
def cleanupVoices (st : VoiceState) : VoiceState :=
  { st with active := 0, pending := 0 }

/-- useVoiceManager.manageVoices: force a cleanup when more than one second
has passed since the last one, then report whether a voice is available. -/
def manageVoices (st : VoiceState) (now : ℚ) : VoiceState × Bool :=
  let st1 :=
    if 1 < now - st.lastCleanup then { cleanupVoices st with lastCleanup := now }
    else st
  (st1, decide (st1.active < MAX_VOICES))

/-- The per-velocity loop body of `executePattern`: for each positive
velocity, take at most three notes, and only when the projected total stays
within `MAX_VOICES` trigger the pad and count the notes via
`updateVoiceStatus`. The returned list records `voiceStatus.active`
immediately after each granted allocation's count update. -/
def execPatternGo (notes : List String) : VoiceState → List ℚ → VoiceState × List ℤ
  | st, [] => (st, [])
  | st, v :: rest =>
    if 0 < v then
      if st.active + ((notes.take 3).length : ℤ) ≤ MAX_VOICES then
        let granted := updateVoiceStatus st ((notes.take 3).length : ℤ)
        let tail := execPatternGo notes granted rest
        (tail.1, granted.active :: tail.2)
      else execPatternGo notes st rest
    else execPatternGo notes st rest

/-- usePatternHandler.executePattern for a chord pattern: bail out when
`manageVoices` reports no free voice, otherwise run the velocity loop. For
non-chord calls the function does nothing. -/
def executePattern (st : VoiceState) (isChordsType : Bool) (velocities : List ℚ)
    (notes : List String) (now : ℚ) : VoiceState × List ℤ :=
  if isChordsType then
    let managed := manageVoices st now
    if managed.2 then execPatternGo notes managed.1 velocities
    else (managed.1, [])
  else (st, [])

/-- The rhythm-velocity rows `level0`..`level4` of one voice's entry in
`PatternGenerator.rhythmPatterns`. -/
structure RhythmTable where
  level0 : List ℚ
  level1 : List ℚ
  level2 : List ℚ
  level3 : List ℚ
  level4 : List ℚ

/-- The instance state of a `PatternGenerator` object: its two table fields.
The arpeggio transforms are the function-valued entries of
`arpeggioPatterns`. -/
structure PatternGenState where
  bass : RhythmTable
  chords : RhythmTable
  arp2 : List String → List String
  arp3 : List String → List String
  arp4 : List String → List String

/-- The field values a freshly constructed `PatternGenerator` carries.
`arp4` reads fixed indices, so fewer than three input notes yield JS
`undefined` entries, modelled as `""`. -/
def patternGenInit : PatternGenState :=
  { bass :=
      ⟨[0], [1, 0, 0, 0], [1, 0, 7/10, 0], [1, 6/10, 8/10, 6/10],
        [1, 7/10, 9/10, 8/10, 6/10, 8/10, 7/10, 9/10]⟩
    chords :=
      ⟨[0], [1, 0, 7/10, 0], [1, 0, 7/10, 0], [9/10, 0, 7/10, 0, 8/10, 0, 7/10, 0],
        [1, 6/10, 8/10, 5/10, 9/10, 6/10, 7/10, 8/10]⟩
    arp2 := fun notes => notes
    arp3 := fun notes => notes ++ ((notes.drop 1).dropLast).reverse
    arp4 := fun notes =>
      [notes.getD 0 "", notes.getD 1 "", notes.getD 0 "", notes.getD 2 "",
       notes.getD 1 "", notes.getD 2 "", notes.getD 1 "", notes.getD 0 ""] }

/-- The `type` argument of `generatePattern`. -/
inductive VoiceType where
  | bass
  | chords
  | arpeggio
deriving DecidableEq, Repr

/-- The `{ pattern, notes }` record returned for bass and chords. -/
structure Pattern where
  pattern : List ℚ
  notes : List String
deriving DecidableEq, Repr

/-- The union return type `Pattern | string[]` of `generatePattern`. -/
inductive PatternResult where
  | pat (p : Pattern)
  | seq (notes : List String)
deriving DecidableEq, Repr

/-- The string-keyed lookup `patterns[`level N`] || patterns.level1` on a
rhythm table: defined rows for levels 0..4, the level-1 row otherwise. -/
def rhythmLookup (t : RhythmTable) (level : ℤ) : List ℚ :=
  if level = 0 then t.level0
  else if level = 1 then t.level1
  else if level = 2 then t.level2
  else if level = 3 then t.level3
  else if level = 4 then t.level4
  else t.level1

/-- The lookup `arpeggioPatterns[`level N`] || arpeggioPatterns.level2`. -/
def arpLookup (g : PatternGenState) (level : ℤ) : List String → List String :=
  if level = 2 then g.arp2
  else if level = 3 then g.arp3
  else if level = 4 then g.arp4
  else g.arp2

/-- PatternGenerator.generatePattern. -/
def generatePattern (g : PatternGenState) (type : VoiceType) (level : ℤ)
    (notes : List String) : PatternResult :=
  match type with
  | .arpeggio =>
    if 1 < level then .seq (arpLookup g level notes) else .seq notes
  | .bass => .pat ⟨rhythmLookup g.bass level, notes⟩
  | .chords => .pat ⟨rhythmLookup g.chords level, notes⟩

/-- One `generatePattern` method call viewed as a state transition on the
generator object: the method reads the tables and writes no field. -/
def generatePatternStep (g : PatternGenState) (type : VoiceType) (level : ℤ)
    (notes : List String) : PatternResult × PatternGenState :=
  (generatePattern g type level notes, g)

/-- An ideal random source: whenever the repetition bound forces a switch,
the sampled index `Math.floor(Math.random() * newRoots.length)` lies below
the candidate-list length. -/
def ValidChoice (st : HMState) (contributionLevel : ℤ) (k : ℕ) : Prop :=
  MAX_ROOT_REPETITIONS ≤ repCount st →
    k < (newRootsOf (scaleSet st contributionLevel)).length

/-- The states a `HarmonyManager` instance can be in: the constructed state,
closed under `determineHarmony` calls driven by an ideal random source. -/
inductive Reach : HMState → Prop
  | init : Reach initialHM
  | step (st : HMState) (contributionLevel dayOfWeek : ℤ) (k : ℕ) :
      Reach st → ValidChoice st contributionLevel k →
      Reach (determineHarmony st contributionLevel dayOfWeek k)

theorem getD_mem_of_lt {α : Type} {l : List α} {k : ℕ} {d : α} (h : k < l.length) :
    l.getD k d ∈ l := by
  induction l generalizing k with
  | nil => exact absurd h (by simp)
  | cons a t ih =>
    cases k with
    | zero => simp
    | succ n =>
      have hn : n < t.length := by simpa using h
      simpa using Or.inr (ih hn)

theorem exists_getD_of_mem {α : Type} {l : List α} {r : α} (h : r ∈ l) (d : α) :
    ∃ k, k < l.length ∧ l.getD k d = r := by
  induction l with
  | nil => simp at h
  | cons a t ih =>
    rcases List.mem_cons.mp h with rfl | hmem
    · exact ⟨0, by simp, by simp⟩
    · obtain ⟨k, hk, hg⟩ := ih hmem
      exact ⟨k + 1, by simpa using hk, by simpa using hg⟩

theorem getAvailableRoots_eq (st : HMState) : getAvailableRoots st = ["C", "F", "G"] := by
  unfold getAvailableRoots
  cases h : st.currentScale <;> rfl

theorem determineHarmony_key (st : HMState) (level day : ℤ) (k : ℕ) :
    (determineHarmony st level day k).currentKey =
      getNextHarmonicRoot (scaleSet st level) k := rfl

theorem determineHarmony_scale (st : HMState) (level day : ℤ) (k : ℕ) :
    (determineHarmony st level day k).currentScale =
      (scaleSet st level).currentScale := rfl

theorem determineHarmony_hist (st : HMState) (level day : ℤ) (k : ℕ) :
    (determineHarmony st level day k).rootHistory =
      (if 8 < (st.rootHistory ++ [getNextHarmonicRoot (scaleSet st level) k]).length
       then (st.rootHistory ++ [getNextHarmonicRoot (scaleSet st level) k]).drop 1
       else st.rootHistory ++ [getNextHarmonicRoot (scaleSet st level) k]) := rfl

theorem determineHarmony_prog (st : HMState) (level day : ℤ) (k : ℕ) :
    (determineHarmony st level day k).currentProgression =
      alignProgressionWithRoot
        { scaleSet st level with currentKey := getNextHarmonicRoot (scaleSet st level) k }
        (getNextHarmonicRoot (scaleSet st level) k) := rfl

theorem getNextHarmonicRoot_keep {st : HMState} (k : ℕ) (h : repCount st < 4) :
    getNextHarmonicRoot st k = st.currentKey := by
  unfold getNextHarmonicRoot
  rw [if_neg]
  simp only [MAX_ROOT_REPETITIONS]
  omega

theorem getNextHarmonicRoot_switch {st : HMState} (k : ℕ) (h : 4 ≤ repCount st) :
    getNextHarmonicRoot st k = (newRootsOf st).getD k "" := by
  unfold getNextHarmonicRoot
  rw [if_pos]
  exact h

theorem newRootsOf_mem_ne {st : HMState} {r : String} (h : r ∈ newRootsOf st) :
    r ∈ (["C", "F", "G"] : List String) ∧ r ≠ st.currentKey := by
  unfold newRootsOf at h
  rw [getAvailableRoots_eq] at h
  obtain ⟨hmem, hne⟩ := List.mem_filter.mp h
  exact ⟨hmem, by simpa using hne⟩

theorem align_mem (st : HMState) (r : String)
    (h : st.currentProgression = progressionBasic ∨
         st.currentProgression = progressionPop) :
    alignProgressionWithRoot st r = progressionBasic ∨
      alignProgressionWithRoot st r = progressionPop := by
  simp only [alignProgressionWithRoot]
  split_ifs with h1 h2
  · exact Or.inl rfl
  · exact Or.inr rfl
  · exact h

theorem repCount_scaleSet (st : HMState) (level : ℤ) :
    repCount (scaleSet st level) = repCount st := rfl

theorem reach_inv {st : HMState} (h : Reach st) :
    st.currentKey ∈ (["C", "F", "G"] : List String) ∧
      st.rootHistory.length ≤ 8 ∧
      (st.currentProgression = progressionBasic ∨
        st.currentProgression = progressionPop) := by
  induction h with
  | init => exact ⟨by decide, by decide, Or.inl rfl⟩
  | step st level day k hr hv ih =>
    obtain ⟨hkey, hlen, hprog⟩ := ih
    refine ⟨?_, ?_, ?_⟩
    · rw [determineHarmony_key]
      by_cases hc : 4 ≤ repCount st
      · rw [getNextHarmonicRoot_switch k (by rw [repCount_scaleSet]; exact hc)]
        have hk : k < (newRootsOf (scaleSet st level)).length := hv hc
        exact (newRootsOf_mem_ne (getD_mem_of_lt hk)).1
      · rw [getNextHarmonicRoot_keep k (by rw [repCount_scaleSet]; omega)]
        exact hkey
    · rw [determineHarmony_hist]
      split_ifs with hlong
      · simp only [List.length_drop, List.length_append, List.length_cons,
          List.length_nil]
        omega
      · simp only [List.length_append, List.length_cons, List.length_nil] at hlong ⊢
        omega
    · rw [determineHarmony_prog]
      exact align_mem _ _ hprog

theorem getChordNotes_nil_or_length (st : HMState) (chordSymbol : String) :
    getChordNotes st chordSymbol = [] ∨
      (getChordNotes st chordSymbol).length =
        (chordIntervals (getChordType chordSymbol)).length := by
  simp only [getChordNotes]
  split_ifs with h1 h2
  · exact Or.inl rfl
  · exact Or.inr (by simp)
  · exact Or.inl rfl

theorem tmod_four_of_nonneg {a : ℤ} (h : 0 ≤ a) : Int.tmod a 4 = a % 4 := by
  obtain ⟨n, rfl⟩ := Int.eq_ofNat_of_zero_le h
  rfl

theorem align_cases (st : HMState) (r : String) :
    (jsIndexOf (scales st.currentScale) r = 4 →
      alignProgressionWithRoot st r = progressionBasic) ∧
    (jsIndexOf (scales st.currentScale) r = 3 →
      alignProgressionWithRoot st r = progressionPop) ∧
    (jsIndexOf (scales st.currentScale) r ≠ 4 →
      jsIndexOf (scales st.currentScale) r ≠ 3 →
      alignProgressionWithRoot st r = st.currentProgression) := by
  simp only [alignProgressionWithRoot]
  split_ifs with h1 h2
  · exact ⟨fun _ => rfl, fun h => by omega, fun h _ => absurd h1 h⟩
  · exact ⟨fun h => by omega, fun _ => rfl, fun _ h => absurd h2 h⟩
  · exact ⟨fun h => absurd h h1, fun h => absurd h h2, fun _ _ => rfl⟩

/-- C1: a `determineHarmony` call keeps the current key while that key occurs
fewer than 4 times in the at-most-8-entry root history; once it occurs 4 or
more times the new key is drawn from the primary-degree roots of the current
scale excluding the current key (and, for an ideal random source, every such
root is reachable, i.e. the draw ranges over exactly that list); in either
case the chosen root is appended to the history, which is then truncated to
its 8 most recent entries. -/
theorem claim_c1_root_repetition (st : HMState) (hst : Reach st)
    (level day : ℤ) (k : ℕ) (hk : ValidChoice st level k) :
    (repCount st < 4 →
      (determineHarmony st level day k).currentKey = st.currentKey) ∧
    (4 ≤ repCount st →
      (determineHarmony st level day k).currentKey ∈ newRootsOf (scaleSet st level) ∧
      (determineHarmony st level day k).currentKey ≠ st.currentKey ∧
      (∀ r ∈ newRootsOf (scaleSet st level),
        ∃ k2, k2 < (newRootsOf (scaleSet st level)).length ∧
          (determineHarmony st level day k2).currentKey = r)) ∧
    st.rootHistory.length ≤ 8 ∧
    (determineHarmony st level day k).rootHistory =
      (st.rootHistory ++ [(determineHarmony st level day k).currentKey]).drop
        (st.rootHistory.length + 1 - 8) := by
  obtain ⟨hkey, hlen, hprog⟩ := reach_inv hst
  refine ⟨?_, ?_, hlen, ?_⟩
  · intro h
    rw [determineHarmony_key,
      getNextHarmonicRoot_keep k (by rw [repCount_scaleSet]; omega)]
    rfl
  · intro h
    have hswitch : (determineHarmony st level day k).currentKey
        = (newRootsOf (scaleSet st level)).getD k "" := by
      rw [determineHarmony_key,
        getNextHarmonicRoot_switch k (by rw [repCount_scaleSet]; exact h)]
    have hklt : k < (newRootsOf (scaleSet st level)).length := hk h
    have hmem : (determineHarmony st level day k).currentKey
        ∈ newRootsOf (scaleSet st level) := by
      rw [hswitch]; exact getD_mem_of_lt hklt
    refine ⟨hmem, (newRootsOf_mem_ne hmem).2, ?_⟩
    intro r hr
    obtain ⟨k2, hk2lt, hgd⟩ := exists_getD_of_mem hr ""
    refine ⟨k2, hk2lt, ?_⟩
    rw [determineHarmony_key,
      getNextHarmonicRoot_switch k2 (by rw [repCount_scaleSet]; exact h)]
    exact hgd
  · rw [determineHarmony_key, determineHarmony_hist]
    split_ifs with hlong
    · simp only [List.length_append, List.length_cons, List.length_nil] at hlong
      have h8 : st.rootHistory.length = 8 := by omega
      rw [h8]
    · simp only [List.length_append, List.length_cons, List.length_nil] at hlong
      have h0 : st.rootHistory.length + 1 - 8 = 0 := by omega
      rw [h0, List.drop_zero]

/-- Witness for C1 at the freshly constructed manager: no repetitions yet, so
the key stays `C` and the history becomes `[C]`. -/
theorem claim_c1_witness :
    Reach initialHM ∧ ValidChoice initialHM 3 0 ∧
      repCount initialHM < 4 ∧
      (determineHarmony initialHM 3 0 0).currentKey = initialHM.currentKey :=
  ⟨Reach.init, by intro h; exact absurd h (by decide), by decide,
    (claim_c1_root_repetition initialHM Reach.init 3 0 0
      (by intro h; exact absurd h (by decide))).1 (by decide)⟩

/-- C2: after a `determineHarmony` call, a newly chosen root at index 4 of
the newly selected scale's note table forces the basic progression
`[I, IV, V, I]`; index 3 forces the pop progression `[I, V, vi, IV]`; any
other index (including `-1` for a root absent from the table) leaves the
progression exactly as it was before the call. -/
theorem claim_c2_progression_alignment (st : HMState) (level day : ℤ) (k : ℕ) :
    (jsIndexOf (scales (determineHarmony st level day k).currentScale)
        (determineHarmony st level day k).currentKey = 4 →
      (determineHarmony st level day k).currentProgression = progressionBasic) ∧
    (jsIndexOf (scales (determineHarmony st level day k).currentScale)
        (determineHarmony st level day k).currentKey = 3 →
      (determineHarmony st level day k).currentProgression = progressionPop) ∧
    (jsIndexOf (scales (determineHarmony st level day k).currentScale)
        (determineHarmony st level day k).currentKey ≠ 4 →
      jsIndexOf (scales (determineHarmony st level day k).currentScale)
        (determineHarmony st level day k).currentKey ≠ 3 →
      (determineHarmony st level day k).currentProgression = st.currentProgression) :=
  align_cases
    { scaleSet st level with currentKey := getNextHarmonicRoot (scaleSet st level) k }
    (getNextHarmonicRoot (scaleSet st level) k)

/-- Witness for C2 at the initial state: the kept root `C` has index 0, so
the progression is unchanged. -/
theorem claim_c2_witness :
    jsIndexOf (scales (determineHarmony initialHM 3 0 0).currentScale)
        (determineHarmony initialHM 3 0 0).currentKey ≠ 4 ∧
      (determineHarmony initialHM 3 0 0).currentProgression =
        initialHM.currentProgression :=
  ⟨by decide,
    (claim_c2_progression_alignment initialHM 3 0 0).2.2 (by decide) (by decide)⟩

/-- C10: in every reachable `HarmonyManager` state the key is one of
`C`, `F`, `G` (the degree-0/3/4 entries of both scale tables, as
`getAvailableRoots` shows), the progression is always the basic or the pop
template — hence always 4 symbols long — and the jazz and emotional
templates are never the current progression. -/
theorem claim_c10_reachable_keys (st : HMState) (hst : Reach st) :
    st.currentKey ∈ (["C", "F", "G"] : List String) ∧
    getAvailableRoots st = ["C", "F", "G"] ∧
    (st.currentProgression = progressionBasic ∨
      st.currentProgression = progressionPop) ∧
    st.currentProgression.length = 4 ∧
    st.currentProgression ≠ progressionJazz ∧
    st.currentProgression ≠ progressionEmotional := by
  obtain ⟨hkey, _, hprog⟩ := reach_inv hst
  refine ⟨hkey, getAvailableRoots_eq st, hprog, ?_, ?_, ?_⟩
  · rcases hprog with h | h <;> rw [h] <;> rfl
  · rcases hprog with h | h <;> rw [h] <;> decide
  · rcases hprog with h | h <;> rw [h] <;> decide

/-- Witness for C10 at the freshly constructed manager. -/
theorem claim_c10_witness :
    initialHM.currentKey ∈ (["C", "F", "G"] : List String) ∧
      getAvailableRoots initialHM = ["C", "F", "G"] ∧
      (initialHM.currentProgression = progressionBasic ∨
        initialHM.currentProgression = progressionPop) ∧
      initialHM.currentProgression.length = 4 ∧
      initialHM.currentProgression ≠ progressionJazz ∧
      initialHM.currentProgression ≠ progressionEmotional :=
  claim_c10_reachable_keys initialHM Reach.init

set_option maxRecDepth 4096

/-- C3: over all scales in the table, keys among the six primary roots and
the seven progression-template symbols, `getChordNotes` returns either `[]`
or a list whose length equals the inferred chord type's interval count and
whose every entry matches the note shape letter, optional flat or sharp,
octave digit. -/
theorem claim_c3_chord_validity :
    ∀ sc ∈ [ScaleKind.major, ScaleKind.minor],
      ∀ key ∈ (["C", "D", "E", "F", "G", "A"] : List String),
        ∀ sym ∈ (["I", "ii", "IV", "V", "vi", "I7", "Isus4"] : List String),
          getChordNotes { initialHM with currentScale := sc, currentKey := key } sym = [] ∨
            ((getChordNotes { initialHM with currentScale := sc, currentKey := key } sym).length
                = (chordIntervals (getChordType sym)).length ∧
              ∀ n ∈ getChordNotes { initialHM with currentScale := sc, currentKey := key } sym,
                matchNote n = true) := by decide

/-- Witness for C3 at the C-major tonic triad. -/
theorem claim_c3_witness :
    ScaleKind.major ∈ [ScaleKind.major, ScaleKind.minor] ∧
      "C" ∈ (["C", "D", "E", "F", "G", "A"] : List String) ∧
      "I" ∈ (["I", "ii", "IV", "V", "vi", "I7", "Isus4"] : List String) ∧
      (getChordNotes { initialHM with currentScale := ScaleKind.major, currentKey := "C" } "I"
          = [] ∨
        ((getChordNotes { initialHM with currentScale := ScaleKind.major, currentKey := "C" }
              "I").length = (chordIntervals (getChordType "I")).length ∧
          ∀ n ∈ getChordNotes
              { initialHM with currentScale := ScaleKind.major, currentKey := "C" } "I",
            matchNote n = true)) :=
  ⟨by decide, by decide, by decide,
    claim_c3_chord_validity ScaleKind.major (by decide) "C" (by decide) "I" (by decide)⟩

/-- C4: `getExtendedHarmony` either re-voices the resolved tonic chord —
bass at octave 2, chord at octave 3, extensions at octave 4 with, for
level > 2 only, the first note additionally at octave 5 (so 4 entries for
level > 2 and 3 otherwise) — or, whenever the resolution is empty (the
caught-exception path) or any note fails the note-shape check, returns
exactly the fixed default voicing for the selected mode. -/
theorem claim_c4_extended_harmony (st : HMState) (level : ℤ) :
    (getChordNotes st (if 2 < level then "I" else "i") = [] ∨
        (getChordNotes st (if 2 < level then "I" else "i")).all matchNote = false →
      getExtendedHarmony st level =
        defaultNotes (if 2 < level then ScaleKind.major else ScaleKind.minor)) ∧
    (∀ n0 rest, getChordNotes st (if 2 < level then "I" else "i") = n0 :: rest →
      (n0 :: rest).all matchNote = true →
      getExtendedHarmony st level =
        { bass := jsReplaceDigit n0 '2'
          chord := (n0 :: rest).map (fun note => jsReplaceDigit note '3')
          extensions :=
            if 2 < level then
              (n0 :: rest).map (fun note => jsReplaceDigit note '4') ++
                [jsReplaceDigit n0 '5']
            else (n0 :: rest).map (fun note => jsReplaceDigit note '4') } ∧
      (getExtendedHarmony st level).extensions.length = if 2 < level then 4 else 3) := by
  constructor
  · intro h
    simp only [getExtendedHarmony]
    rcases h with h | h
    · rw [h]
      rfl
    · rw [h]
      simp
  · intro n0 rest hbase hall
    have hrest : rest.length = 2 := by
      rcases getChordNotes_nil_or_length st (if 2 < level then "I" else "i") with h | h
      · rw [hbase] at h
        simp at h
      · rw [hbase] at h
        by_cases hl : 2 < level
        · rw [if_pos hl] at h
          have h3 : (chordIntervals (getChordType "I")).length = 3 := by decide
          rw [h3] at h
          simpa using h
        · rw [if_neg hl] at h
          have h3 : (chordIntervals (getChordType "i")).length = 3 := by decide
          rw [h3] at h
          simpa using h
    have hmain : getExtendedHarmony st level =
        { bass := jsReplaceDigit n0 '2'
          chord := (n0 :: rest).map (fun note => jsReplaceDigit note '3')
          extensions :=
            if 2 < level then
              (n0 :: rest).map (fun note => jsReplaceDigit note '4') ++
                [jsReplaceDigit n0 '5']
            else (n0 :: rest).map (fun note => jsReplaceDigit note '4') } := by
      simp only [getExtendedHarmony]
      rw [hbase, if_pos hall]
    refine ⟨hmain, ?_⟩
    rw [hmain]
    by_cases hl : 2 < level
    · rw [if_pos hl, if_pos hl]
      simp [hrest]
    · rw [if_neg hl, if_neg hl]
      simp [hrest]

/-- Witness for C4 with the resolvable C-major tonic at level 3. -/
theorem claim_c4_witness :
    getChordNotes initialHM (if 2 < (3:ℤ) then "I" else "i") = "C4" :: ["C4", "C5"] ∧
      ("C4" :: ["C4", "C5"]).all matchNote = true ∧
      getExtendedHarmony initialHM 3 =
        { bass := jsReplaceDigit "C4" '2'
          chord := ("C4" :: ["C4", "C5"]).map (fun note => jsReplaceDigit note '3')
          extensions :=
            if 2 < (3:ℤ) then
              ("C4" :: ["C4", "C5"]).map (fun note => jsReplaceDigit note '4') ++
                [jsReplaceDigit "C4" '5']
            else ("C4" :: ["C4", "C5"]).map (fun note => jsReplaceDigit note '4') } ∧
      (getExtendedHarmony initialHM 3).extensions.length = if 2 < (3:ℤ) then 4 else 3 :=
  ⟨by decide, by decide,
    ((claim_c4_extended_harmony initialHM 3).2 "C4" ["C4", "C5"]
        (by decide) (by decide)).1,
    ((claim_c4_extended_harmony initialHM 3).2 "C4" ["C4", "C5"]
        (by decide) (by decide)).2⟩

/-- C8: `getCurrentChord` is the total function that resolves, via
`getChordNotes`, the progression symbol at the beat index
`Math.floor(timestamp * bpm / 60) % 4` (for nonnegative time and positive
bpm this JS remainder is the mathematical value in `[0, 4)`), and it yields
`[]` — rather than any failure — whenever the current key is absent from the
scale table or the selected symbol is empty or missing. -/
theorem claim_c8_current_chord_total (st : HMState) (t : ℚ) :
    (getCurrentChord st t).1 =
      getChordNotes { st with currentBeat := jsBeat st t }
        (jsGetStr st.currentProgression (jsBeat st t)) ∧
    (0 ≤ t → 0 < st.bpm →
      jsBeat st t = Rat.floor (t * st.bpm / 60) % 4 ∧
      0 ≤ jsBeat st t ∧ jsBeat st t < 4) ∧
    (jsIndexOf (scales st.currentScale) st.currentKey = -1 ∨
        jsGetStr st.currentProgression (jsBeat st t) = "" →
      (getCurrentChord st t).1 = []) := by
  refine ⟨rfl, ?_, ?_⟩
  · intro ht hb
    have hq : (0:ℚ) ≤ t * st.bpm / 60 := div_nonneg (mul_nonneg ht hb.le) (by norm_num)
    have hfl : 0 ≤ Rat.floor (t * st.bpm / 60) := Rat.le_floor.mpr (by exact_mod_cast hq)
    have hmod := tmod_four_of_nonneg hfl
    refine ⟨hmod, ?_, ?_⟩
    · simp only [jsBeat]
      rw [hmod]
      exact Int.emod_nonneg _ (by norm_num)
    · simp only [jsBeat]
      rw [hmod]
      exact Int.emod_lt_of_pos _ (by norm_num)
  · intro h
    show getChordNotes { st with currentBeat := jsBeat st t }
      (jsGetStr st.currentProgression (jsBeat st t)) = []
    simp only [getChordNotes]
    rw [if_pos h]

/-- Witness for C8 at the initial manager one second in: beat 2, symbol `V`. -/
theorem claim_c8_witness :
    (getCurrentChord initialHM 1).1 =
      getChordNotes { initialHM with currentBeat := jsBeat initialHM 1 }
        (jsGetStr initialHM.currentProgression (jsBeat initialHM 1)) ∧
      jsBeat initialHM 1 = Rat.floor ((1:ℚ) * initialHM.bpm / 60) % 4 ∧
      0 ≤ jsBeat initialHM 1 ∧ jsBeat initialHM 1 < 4 :=
  ⟨(claim_c8_current_chord_total initialHM 1).1,
    (claim_c8_current_chord_total initialHM 1).2.1 (by norm_num)
      (by norm_num [initialHM])⟩

/-- C9: `generatePattern` is deterministic and stateless — one method call
leaves the generator object's fields untouched, and a second call with
structurally identical arguments (chords included) returns a structurally
identical result. -/
theorem claim_c9_pattern_determinism (type : VoiceType) (level : ℤ)
    (notes : List String) :
    (generatePatternStep patternGenInit type level notes).2 = patternGenInit ∧
      (generatePatternStep (generatePatternStep patternGenInit type level notes).2
          type level notes).1 =
        (generatePatternStep patternGenInit type level notes).1 :=
  ⟨rfl, rfl⟩

theorem execPatternGo_bound (notes : List String) (vel : List ℚ) (st : VoiceState) :
    ∀ a ∈ (execPatternGo notes st vel).2, a ≤ MAX_VOICES := by
  induction vel generalizing st with
  | nil =>
    intro a ha
    simp [execPatternGo] at ha
  | cons v rest ih =>
    intro a ha
    simp only [execPatternGo] at ha
    split_ifs at ha with h1 h2
    · rcases List.mem_cons.mp ha with rfl | ha2
      · show max 0 (st.active + ((notes.take 3).length : ℤ)) ≤ MAX_VOICES
        exact max_le (by norm_num [MAX_VOICES]) h2
      · exact ih _ a ha2
    · exact ih _ a ha
    · exact ih _ a ha

/-- C6: the chord-pattern allocation logic never lets `voiceStatus.active`
exceed `MAX_VOICES = 4` at the instant an allocation is granted (every value
recorded immediately after a count update is at most 4), and
`updateVoiceStatus` never drives `active` negative for any delta. -/
theorem claim_c6_voice_ceiling :
    (∀ (st : VoiceState) (delta : ℤ), 0 ≤ (updateVoiceStatus st delta).active) ∧
      (∀ (st : VoiceState) (isChordsType : Bool) (velocities : List ℚ)
          (notes : List String) (now : ℚ),
        ∀ a ∈ (executePattern st isChordsType velocities notes now).2,
          a ≤ MAX_VOICES) := by
  constructor
  · intro st delta
    simp [updateVoiceStatus]
  · intro st isChordsType velocities notes now a ha
    simp only [executePattern] at ha
    split_ifs at ha with h1 h2
    · exact execPatternGo_bound _ _ _ a ha
    · simp at ha
    · simp at ha

/-- Witness for C6: a single chord trigger with three notes from an idle
voice pool records an active count of 3 ≤ 4. -/
theorem executePattern_witness_run :
    (executePattern ⟨0, 0, 0⟩ true [1] ["C3", "E3", "G3"] 0).2 = [3] := by
  norm_num [executePattern, manageVoices, cleanupVoices, execPatternGo,
    updateVoiceStatus, MAX_VOICES]

theorem claim_c6_witness :
    (3:ℤ) ∈ (executePattern ⟨0, 0, 0⟩ true [1] ["C3", "E3", "G3"] 0).2 ∧
      (3:ℤ) ≤ MAX_VOICES :=
  ⟨by rw [executePattern_witness_run]; decide,
    claim_c6_voice_ceiling.2 ⟨0, 0, 0⟩ true [1] ["C3", "E3", "G3"] 0 3
      (by rw [executePattern_witness_run]; decide)⟩

theorem tick_no_advance {st : SeqState} {t : ℚ}
    (hadv : ¬ msPerBar st ≤ t - tickAnchor st t) :
    (tick st t).2 = SeqEvent.none ∧ (tick st t).1.currentBar = st.currentBar := by
  simp only [tick]
  rw [if_neg hadv]
  exact ⟨rfl, rfl⟩

theorem tick_wrap {st : SeqState} {t : ℚ}
    (hadv : msPerBar st ≤ t - tickAnchor st t)
    (hwrap : st.startPosition + st.bars - 1 < st.currentBar + 1) :
    (tick st t).2 = SeqEvent.loopComplete ∧
      (tick st t).1.currentBar = st.startPosition := by
  simp only [tick]
  rw [if_pos hadv]
  simp only [updateBarPosition]
  rw [if_pos hwrap]
  exact ⟨rfl, rfl⟩

theorem tick_increment {st : SeqState} {t : ℚ}
    (hadv : msPerBar st ≤ t - tickAnchor st t)
    (hwrap : ¬ st.startPosition + st.bars - 1 < st.currentBar + 1) :
    (tick st t).2 = SeqEvent.barChange ∧
      (tick st t).1.currentBar = st.currentBar + 1 := by
  simp only [tick]
  rw [if_pos hadv]
  simp only [updateBarPosition]
  rw [if_neg hwrap]
  exact ⟨rfl, rfl⟩

/-- C5: from start position 0, 4 bars, 120 bpm (bar duration 500 ms), a play
at time 100 followed by ticks at 600, 1100, 1600 and 2101 — slightly more
than four bar durations of elapsed time — returns `currentBar` to 0 with
exactly one loop-complete notification; in general a tick advances the bar
exactly when the elapsed time since the anchor reaches `msPerBar`, and the
advance wraps to `startPosition` (instead of incrementing) exactly when the
incremented bar would exceed `startPosition + bars - 1`. -/
theorem claim_c5_transport_wraparound :
    ((runTicks (play (initSeq 4) 100) [600, 1100, 1600, 2101]).1.currentBar = 0 ∧
      (runTicks (play (initSeq 4) 100) [600, 1100, 1600, 2101]).2 = 1) ∧
    (∀ (st : SeqState) (t : ℚ),
      (tick st t).2 ≠ SeqEvent.none ↔ msPerBar st ≤ t - tickAnchor st t) ∧
    (∀ (st : SeqState) (t : ℚ),
      (tick st t).2 = SeqEvent.loopComplete ↔
        (msPerBar st ≤ t - tickAnchor st t ∧
          st.startPosition + st.bars - 1 < st.currentBar + 1)) ∧
    (∀ (st : SeqState) (t : ℚ), (tick st t).2 = SeqEvent.loopComplete →
      (tick st t).1.currentBar = st.startPosition) ∧
    (∀ (st : SeqState) (t : ℚ), (tick st t).2 = SeqEvent.barChange →
      (tick st t).1.currentBar = st.currentBar + 1) := by
  refine ⟨?_, ?_, ?_, ?_, ?_⟩
  · norm_num [runTicks, tick, updateBarPosition, tickAnchor, msPerBar, play, initSeq]
    decide
  · intro st t
    by_cases hadv : msPerBar st ≤ t - tickAnchor st t
    · by_cases hwrap : st.startPosition + st.bars - 1 < st.currentBar + 1
      · rw [(tick_wrap hadv hwrap).1]
        simp [hadv]
      · rw [(tick_increment hadv hwrap).1]
        simp [hadv]
    · rw [(tick_no_advance hadv).1]
      simp [hadv]
  · intro st t
    by_cases hadv : msPerBar st ≤ t - tickAnchor st t
    · by_cases hwrap : st.startPosition + st.bars - 1 < st.currentBar + 1
      · rw [(tick_wrap hadv hwrap).1]
        simp [hadv, hwrap]
      · rw [(tick_increment hadv hwrap).1]
        simp [hadv, hwrap]
    · rw [(tick_no_advance hadv).1]
      simp [hadv]
  · intro st t h
    by_cases hadv : msPerBar st ≤ t - tickAnchor st t
    · by_cases hwrap : st.startPosition + st.bars - 1 < st.currentBar + 1
      · exact (tick_wrap hadv hwrap).2
      · rw [(tick_increment hadv hwrap).1] at h
        simp at h
    · rw [(tick_no_advance hadv).1] at h
      simp at h
  · intro st t h
    by_cases hadv : msPerBar st ≤ t - tickAnchor st t
    · by_cases hwrap : st.startPosition + st.bars - 1 < st.currentBar + 1
      · rw [(tick_wrap hadv hwrap).1] at h
        simp at h
      · exact (tick_increment hadv hwrap).2
    · rw [(tick_no_advance hadv).1] at h
      simp at h

/-- Witness for C5: a tick that wraps — bar 3 of 4, anchor 100, tick at 600 —
raises loop-complete and lands on the start position. -/
theorem claim_c5_witness :
    (tick { initSeq 4 with currentBar := 3, lastTimestamp := 100 } 600).2 =
        SeqEvent.loopComplete ∧
      (tick { initSeq 4 with currentBar := 3, lastTimestamp := 100 } 600).1.currentBar =
        { initSeq 4 with currentBar := 3, lastTimestamp := 100 }.startPosition := by
  have hevent : (tick { initSeq 4 with currentBar := 3, lastTimestamp := 100 } 600).2 =
      SeqEvent.loopComplete := by
    norm_num [tick, updateBarPosition, tickAnchor, msPerBar, initSeq]
  exact ⟨hevent, claim_c5_transport_wraparound.2.2.2.1 _ 600 hevent⟩

theorem seqInv_applyOp {st : SeqState} {op : SeqOp} (h : SeqInv st)
    (hop : ValidSeqOp op) : SeqInv (applySeqOp st op) := by
  obtain ⟨hb, h1, h2⟩ := h
  cases op with
  | opPlay t =>
    show SeqInv (play st t)
    simp only [play, SeqInv]
    exact ⟨hb, le_refl _, by omega⟩
  | opTick t =>
    show SeqInv (tick st t).1
    simp only [tick, updateBarPosition, SeqInv]
    split_ifs with hadv hwrap
    · dsimp only
      exact ⟨hb, le_refl _, by omega⟩
    · dsimp only
      exact ⟨hb, by omega, by omega⟩
    · dsimp only
      exact ⟨hb, h1, h2⟩
  | opStop =>
    show SeqInv (stop st)
    simp only [stop, pause, SeqInv]
    exact ⟨hb, le_refl _, by omega⟩
  | opPause => exact ⟨hb, h1, h2⟩
  | opSetBPM n => exact ⟨hb, h1, h2⟩
  | opSetStart p =>
    show SeqInv (setStartPosition st p)
    simp only [setStartPosition, SeqInv]
    exact ⟨hb, le_refl _, by omega⟩
  | opSetBars n =>
    have hn : (1:ℤ) ≤ n := hop
    show SeqInv (setBars st n)
    simp only [setBars, stop, pause, SeqInv]
    exact ⟨hn, le_refl _, by omega⟩

theorem runSeqOps_inv (ops : List SeqOp) (st : SeqState) (h : SeqInv st)
    (hops : ∀ op ∈ ops, ValidSeqOp op) : SeqInv (runSeqOps st ops) := by
  induction ops generalizing st with
  | nil => exact h
  | cons o rest ih =>
    exact ih (applySeqOp st o) (seqInv_applyOp h (hops o (by simp)))
      (fun op hop => hops op (by simp [hop]))

/-- C7: across every sequence of sequencer operations (play, tick, stop,
pause, setBPM, setStartPosition, bars change with the new count ≥ 1),
`currentBar` stays within `[startPosition, startPosition + bars - 1]`; and
`stop` resets `progress` to 0, `currentBar` to `startPosition`, and clears
the looping flag. -/
theorem claim_c7_position_invariant (b : ℤ) (hb : 1 ≤ b) (ops : List SeqOp)
    (hops : ∀ op ∈ ops, ValidSeqOp op) :
    ((runSeqOps (initSeq b) ops).startPosition ≤ (runSeqOps (initSeq b) ops).currentBar ∧
      (runSeqOps (initSeq b) ops).currentBar ≤
        (runSeqOps (initSeq b) ops).startPosition + (runSeqOps (initSeq b) ops).bars - 1) ∧
    (∀ st : SeqState,
      (stop st).progress = 0 ∧ (stop st).currentBar = st.startPosition ∧
        (stop st).isLooping = false) := by
  have hinit : SeqInv (initSeq b) := by
    refine ⟨hb, le_refl _, ?_⟩
    simp only [initSeq]
    omega
  have hinv := runSeqOps_inv ops (initSeq b) hinit hops
  exact ⟨⟨hinv.2.1, hinv.2.2⟩, fun st => ⟨rfl, rfl, rfl⟩⟩

/-- Witness for C7 with one bar and a play-tick-stop run. -/
theorem claim_c7_witness :
    (1:ℤ) ≤ 1 ∧
      (runSeqOps (initSeq 1) [SeqOp.opPlay 50, SeqOp.opTick 700,
          SeqOp.opStop]).startPosition ≤
        (runSeqOps (initSeq 1) [SeqOp.opPlay 50, SeqOp.opTick 700,
          SeqOp.opStop]).currentBar :=
  ⟨by norm_num,
    (claim_c7_position_invariant 1 (by norm_num)
        [SeqOp.opPlay 50, SeqOp.opTick 700, SeqOp.opStop]
        (by simp [ValidSeqOp])).1.1⟩
